import Mathlib

/-!
Verification of the `use-nemo` source-patching core (scope resolver, text
mutators, directive registry) against its natural-language specification.

Source files embedded here: `src/use-nemo/helpers.ts` (scope resolver and
text mutators) and the directive registry class (`DirectiveRegistry`).

Conventions of the embedding:
* JS strings are embedded as `List Char`; all inputs in the development are
  ASCII, where UTF-16 code-unit indexing and character indexing coincide.
* JS numbers used as counters are embedded as `Int` (they stay small).
* Functions that search and may fail return `Option`.
* The host regular-expression engine is embedded only on the fragments the
  source actually exercises; each such definition hand-compiles the concrete
  regex literal of the source (leftmost match, greedy quantifiers with
  backtracking), and its doc comment names the regex it embeds.
-/

namespace UseNemo

/-- The JS `\s` character class (also the set removed by `String.trim`):
space, tab, line feed, vertical tab, form feed, carriage return, NBSP and the
Unicode space separators, line/paragraph separators, and the BOM. -/
def isJsWs (c : Char) : Bool :=
  c = ' ' || c = '\t' || c = '\n' || c = '\x0b' || c = '\x0c' || c = '\r' ||
  c = ' ' || c = ' ' ||
  (0x2000 ≤ c.val && c.val ≤ 0x200a) ||
  c.val = 0x2028 || c.val = 0x2029 || c.val = 0x202f || c.val = 0x205f ||
  c.val = 0x3000 || c.val = 0xfeff

/-- The single-quote character `'` (written by code point to keep source text plain). -/
def singleQuoteChar : Char := Char.ofNat 39

/-- The backtick character (written by code point to keep source text plain). -/
def backtickChar : Char := Char.ofNat 96

/-- JS regex syntax characters: a pattern free of these matches itself literally. -/
def isRegexSyntaxChar (c : Char) : Bool :=
  c = '\\' || c = '^' || c = '$' || c = '.' || c = '|' || c = '?' ||
  c = '*' || c = '+' || c = '(' || c = ')' || c = '[' || c = ']' ||
  c = '\x7b' || c = '\x7d'

/-- Directive-name alphabet per the spec (§6): letters, digits, hyphen
(underscore added as harmless); marks the domain on which the marker-regex
embedding below is faithful. -/
def isDirNameChar (c : Char) : Bool :=
  c.isAlphanum || c = '-' || c = '_'

/-- Characters that can appear in a component/attribute name or an attribute
value without interfering with the `addProp`/`removeProp` patterns: not
whitespace, not a regex syntax character (names are spliced verbatim into the
patterns), and none of the JSX-delimiting characters. -/
def isTagNameChar (c : Char) : Bool :=
  !isJsWs c && !isRegexSyntaxChar c && !(c == '<') && !(c == '>') &&
  !(c == '/') && !(c == '=') && !(c == '"') && !(c == singleQuoteChar)

/-! ## Scope resolver (`helpers.ts`, `findFunctionScopeAtIndex` and callers) -/

/-- `DirectiveScope` from `types.ts`. -/
structure DirectiveScope where
  functionName : List Char
  functionCode : List Char
  startIndex : Nat
  endIndex : Nat
deriving DecidableEq, Repr

/-- The backward scan of `findFunctionScopeAtIndex` (helpers.ts:80-89): from
`directiveIndex - 1` down to `0`, `}` increments the signed brace counter, `{`
decrements it; the first `{` that drives the counter below zero is returned.
The first argument is one past the next index to inspect (so the initial call
passes `directiveIndex` itself). -/
def scanBack (code : List Char) : Nat → Int → Option Nat
  | 0, _ => none
  | j + 1, bc =>
    match code[j]? with
    | some c =>
      if c = '\x7d' then scanBack code j (bc + 1)
      else if c = '\x7b' then
        if bc - 1 < 0 then some j else scanBack code j (bc - 1)
      else scanBack code j bc
    | none => scanBack code j bc

/-- Length of the maximal prefix of JS whitespace characters. -/
def wsRun : List Char → Nat
  | [] => 0
  | c :: rest => if isJsWs c then wsRun rest + 1 else 0

/-- `true` iff `c` is in `[A-Za-z_$]` (identifier start of the name regex). -/
def isIdentStart (c : Char) : Bool := c.isAlpha || c = '_' || c = '$'

/-- `true` iff `c` is in `[A-Za-z0-9_$]` (identifier continuation). -/
def isIdentCont (c : Char) : Bool := c.isAlphanum || c = '_' || c = '$'

/-- Length of the maximal prefix of identifier-continuation characters. -/
def identRun : List Char → Nat
  | [] => 0
  | c :: rest => if isIdentCont c then identRun rest + 1 else 0

/-- Tail of the name regex of helpers.ts:98 after the keyword alternative:
`\s+([A-Za-z_$][A-Za-z0-9_$]*)\s*(?:\(|=)`, returning the capture group.
The greedy quantifiers need no further backtracking here: identifier
characters are not whitespace, and `(`/`=` are neither identifier characters
nor whitespace, so the maximal runs are the only candidates. -/
def matchAfterKeyword (s : List Char) : Option (List Char) :=
  let k := wsRun s
  if k = 0 then none
  else
    match s.drop k with
    | [] => none
    | c :: rest =>
      if isIdentStart c then
        let m := identRun rest
        let afterName := rest.drop m
        match afterName.drop (wsRun afterName) with
        | '(' :: _ => some (c :: rest.take m)
        | '=' :: _ => some (c :: rest.take m)
        | _ => none
      else none

/-- Match of the regex `(?:function|const)\s+([A-Za-z_$][A-Za-z0-9_$]*)\s*(?:\(|=)`
(helpers.ts:98) anchored at the start of `s`; returns capture group 1.
The two keyword alternatives start with distinct letters, so at most one
applies at a given position. -/
def fnMatchAt (s : List Char) : Option (List Char) :=
  if ("function".toList).isPrefixOf s then matchAfterKeyword (s.drop 8)
  else if ("const".toList).isPrefixOf s then matchAfterKeyword (s.drop 5)
  else none

/-- `beforeBrace.match(regex)` without the `g` flag (helpers.ts:97): the
leftmost position at which the regex matches wins. -/
def findFnName : List Char → Option (List Char)
  | [] => none
  | c :: rest =>
    match fnMatchAt (c :: rest) with
    | some n => some n
    | none => findFnName rest

/-- The brace-counter update of the forward scanner (helpers.ts:127-130):
braces count only when the post-update string state says we are outside a
string. -/
def braceDelta (c : Char) (inStrAfter : Bool) (bc : Int) : Int :=
  if inStrAfter then bc
  else if c == '\x7b' then bc + 1
  else if c == '\x7d' then bc - 1
  else bc

/-- One step of the forward scanner of helpers.ts:113-133: given the current
index, its character, the brace counter and the string state, produce the
updated `(braceCount, inString, stringChar)`. A quote opens a string when not
inside one; the same quote closes it unless the previous character is a
backslash; braces count only outside strings (using the post-update state, as
in the source). -/
def fwdStep (code : List Char) (cbi : Nat) (c : Char) (bc : Int)
    (inStr : Bool) (sc : Char) : Int × Bool × Char :=
  let prevBackslash : Bool := decide (cbi ≠ 0) && (code[cbi - 1]? == some '\\')
  let opened : Bool := !inStr && (c == '"' || c == singleQuoteChar || c == backtickChar)
  let closed : Bool := !opened && inStr && c == sc && !prevBackslash
  let inStr' : Bool := if opened then true else if closed then false else inStr
  let sc' : Char := if opened then c else sc
  (braceDelta c inStr' bc, inStr', sc')

/-- The forward scan of helpers.ts:113-133, with the remaining character
count (`code.length - cbi`) as a structural recursion argument: the loop runs
while the index is in range (equivalently, while characters remain) and the
brace counter is positive. Returns the final index (one past the character
that balanced the count, or the text length when no close brace balances). -/
def scanForwardAux (code : List Char) : Nat → Nat → Int → Bool → Char → Nat
  | 0, cbi, _, _, _ => cbi
  | fuel + 1, cbi, bc, inStr, sc =>
    if 0 < bc then
      match code[cbi]? with
      | some c =>
        let st := fwdStep code cbi c bc inStr sc
        scanForwardAux code fuel (cbi + 1) st.1 st.2.1 st.2.2
      | none => cbi
    else cbi

/-- The forward scan of helpers.ts:113-133 (`while (closingBraceIndex <
code.length && braceCount > 0)`), entered at index `cbi`. -/
def scanForward (code : List Char) (cbi : Nat) (bc : Int) (inStr : Bool) (sc : Char) : Nat :=
  scanForwardAux code (code.length - cbi) cbi bc inStr sc

/-- `findFunctionScopeAtIndex` (helpers.ts:71-143). -/
def findFunctionScopeAtIndex (code : List Char) (directiveIndex : Nat) :
    Option DirectiveScope :=
  match scanBack code directiveIndex 0 with
  | none => none
  | some functionStartIndex =>
    match findFnName (code.take functionStartIndex) with
    | none => none
    | some functionName =>
      let closingBraceIndex := scanForward code (functionStartIndex + 1) 1 false ' '
      some ⟨functionName,
            (code.drop functionStartIndex).take (closingBraceIndex - functionStartIndex),
            functionStartIndex, closingBraceIndex⟩

/-! ### The directive marker regex `"use\s+<name>"` (helpers.ts:18, 40) -/

/-- `\s+` followed by the literal `lit`, anchored at the start of the input;
greedy with backtracking (the longest whitespace run that lets `lit` match
wins). Returns the total number of characters consumed. -/
def greedyWsLit (lit : List Char) : List Char → Option Nat
  | [] => none
  | c :: rest =>
    if isJsWs c then
      match greedyWsLit lit rest with
      | some n => some (n + 1)
      | none => if lit.isPrefixOf rest then some (lit.length + 1) else none
    else none

/-- Match of the marker regex `"use\s+<name>"` anchored at the start of `s`:
the literal `"use`, then `\s+`, then the directive name, then `"`. Returns the
length of the match. Faithful for names free of regex syntax characters (the
name is spliced verbatim into the pattern by the source). -/
def markerMatchLen (name : List Char) (s : List Char) : Option Nat :=
  if ("\x22use".toList).isPrefixOf s then
    (greedyWsLit (name ++ ['"']) (s.drop 4)).map (· + 4)
  else none

/-- `directivePattern.exec(code)` resumed from `pos`, with the remaining
character count (`code.length - pos`) as a structural recursion argument: try
the positions left to right; the leftmost match wins. Positions at or past the
end of the text (fuel `0`) yield no match. -/
def execFromAux (code name : List Char) : Nat → Nat → Option (Nat × Nat)
  | 0, _ => none
  | fuel + 1, pos =>
    match markerMatchLen name (code.drop pos) with
    | some len => some (pos, len)
    | none => execFromAux code name fuel (pos + 1)

/-- `directivePattern.exec(code)` resumed from `pos` (`lastIndex`): the
leftmost match at index `≥ pos`, returned as `(index, length)`. -/
def execFrom (code name : List Char) (pos : Nat) : Option (Nat × Nat) :=
  execFromAux code name (code.length - pos) pos

/-- `getDirectiveScope` (helpers.ts:13-27): find the first marker occurrence,
then resolve its function scope. There is no global fallback: a top-level
marker (no enclosing brace) yields `none`. -/
def getDirectiveScope (code name : List Char) : Option DirectiveScope :=
  match execFrom code name 0 with
  | none => none
  | some (i, _) => findFunctionScopeAtIndex code i

/-- The global whole-file descriptor returned by `getAllDirectiveScopes`
(helpers.ts:46-53). -/
def globalScope (code : List Char) : DirectiveScope :=
  ⟨"global".toList, code, 0, code.length⟩

/-- Loop body of `getAllDirectiveScopes` (helpers.ts:43-60). `fuel` bounds the
iteration count; every match has positive length (at least 6 characters), so
`code.length + 1` iterations always reach the terminating `exec` failure, and
the fuel never runs out on the initial call below. -/
def getAllDirectiveScopesAux (code name : List Char) :
    Nat → Nat → List DirectiveScope → List DirectiveScope
  | 0, _, scopes => scopes
  | fuel + 1, pos, scopes =>
    match execFrom code name pos with
    | none => scopes
    | some (i, len) =>
      if i = 0 ∨ (code.take i).all isJsWs then [globalScope code]
      else
        match findFunctionScopeAtIndex code i with
        | some s => getAllDirectiveScopesAux code name fuel (i + len) (scopes ++ [s])
        | none => getAllDirectiveScopesAux code name fuel (i + len) scopes

/-- `getAllDirectiveScopes` (helpers.ts:35-63). -/
def getAllDirectiveScopes (code name : List Char) : List DirectiveScope :=
  getAllDirectiveScopesAux code name (code.length + 1) 0 []

/-! ## Text mutators (`helpers.ts`) -/

/-- `String.prototype.includes`: substring containment of `pat` in `code`. -/
def includesSub : List Char → List Char → Bool
  | [], pat => pat.isEmpty
  | c :: rest, pat => pat.isPrefixOf (c :: rest) || includesSub rest pat

/-- `addImport` (helpers.ts:426-432): return the code unchanged when the exact
statement string already occurs anywhere in it, else prepend the statement and
a newline. -/
def addImport (code importStatement : List Char) : List Char :=
  if includesSub code importStatement then code
  else importStatement ++ '\n' :: code

/-- Global replacement of a nonempty literal pattern, as `String.replace` with
a global regex that matches the pattern literally: scan left to right, replace
each (non-overlapping, leftmost) occurrence and resume after it. -/
def replaceAllLitGo (pat rep : List Char) : Nat → List Char → List Char
  | _, [] => []
  | 0, l => l
  | fuel + 1, c :: rest =>
    if pat.isPrefixOf (c :: rest) && !pat.isEmpty then
      rep ++ replaceAllLitGo pat rep fuel (rest.drop (pat.length - 1))
    else c :: replaceAllLitGo pat rep fuel rest

/-- `code.replace(re, rep)` for a global regex `re` matching the literal
pattern `pat`: for the empty pattern the regex matches the empty string at
every position (so `rep` is inserted around every character); otherwise
replace every occurrence. -/
def jsReplaceLitG (code pat rep : List Char) : List Char :=
  if pat.isEmpty then rep ++ code.flatMap (fun c => c :: rep)
  else replaceAllLitGo pat rep code.length code

/-- Modelled from the host platform (the source builds its regexes with
`new RegExp` at run time): a pattern that contains an unescaped `(` (no `\`
and no `[` anywhere, so it can be neither escaped nor inside a class) and no
`)` has an unterminated group, which the JS `RegExp` constructor rejects with
a `SyntaxError`. Only this certainly-invalid family is modelled. -/
def regexDefinitelyInvalid (pat : List Char) : Bool :=
  pat.contains '(' && !pat.contains ')' && !pat.contains '\\' && !pat.contains '['

/-- `replaceText` (helpers.ts:388-394): `code.replace(new RegExp(oldText, "g"), newText)`.
Embedded over the modelled fragment of the host regex engine: a certainly
invalid `oldText` makes the `RegExp` constructor throw (`some (.error ())`); an
`oldText` free of regex syntax characters compiles to a literal matcher, and
with a `$`-free `newText` the replacement is verbatim (`some (.ok _)`); other
parameters are outside the modelled fragment (`none`). -/
def replaceText (code oldText newText : List Char) : Option (Except Unit (List Char)) :=
  if regexDefinitelyInvalid oldText then some (.error ())
  else if oldText.all (fun c => !isRegexSyntaxChar c) && !newText.contains '$' then
    some (.ok (jsReplaceLitG code oldText newText))
  else none

/-! ### `addProp` (helpers.ts:347-355)

The regex is `(<NAME(?:\s[^>]*)?)([\s/>])` with the component name spliced in,
global, with replacement `$1 PROP="VALUE"$2`. The matcher below hand-compiles
it: after the literal `<NAME`, the greedy optional group consumes one
whitespace character and then the longest run of non-`>` characters that
leaves a `[\s/>]` character for group 2 (backtracking shortens the run, and
failing that drops the optional group). -/

/-- Length of the maximal prefix of characters other than `>`
(the greedy `[^>]*`). -/
def countNonGt : List Char → Nat
  | [] => 0
  | c :: rest => if c = '>' then 0 else countNonGt rest + 1

/-- Largest index of the list holding a whitespace or `/` character (found by
the backtracking of `[^>]*` against the trailing `([\s/>])`), with that
character. -/
def lastIdxWsSlash : List Char → Option (Nat × Char)
  | [] => none
  | c :: rest =>
    match lastIdxWsSlash rest with
    | some (k, ch) => some (k + 1, ch)
    | none => if isJsWs c || c = '/' then some (0, c) else none

/-- Match of the `addProp` regex anchored at the start of `s`: returns
`(group1, group2, total match length)`. -/
def addPropMatchAt (C : List Char) (s : List Char) : Option (List Char × Char × Nat) :=
  if ('<' :: C).isPrefixOf s then
    match s.drop (C.length + 1) with
    | [] => none
    | w :: t =>
      if isJsWs w then
        match t.drop (countNonGt t) with
        | c' :: _ =>
          if c' = '>' then
            some ('<' :: C ++ w :: t.take (countNonGt t), '>', C.length + countNonGt t + 3)
          else none
        | [] =>
          match lastIdxWsSlash (t.take (countNonGt t)) with
          | some (k, ch) => some ('<' :: C ++ w :: t.take k, ch, C.length + k + 3)
          | none => some ('<' :: C, w, C.length + 2)
      else if w = '/' || w = '>' then some ('<' :: C, w, C.length + 2)
      else none
  else none

/-- The global replace of `addProp`: scan left to right; at each match emit
`$1 PROP="VALUE"$2` and resume after the match. Every match consumes at least
one character (its length is at least `C.length + 2`), so resuming after a
match of length `n` at `c :: rest` is resuming at `rest.drop (n - 1)`. -/
def addPropGo (C P V : List Char) : Nat → List Char → List Char
  | _, [] => []
  | 0, l => l
  | fuel + 1, c :: rest =>
    match addPropMatchAt C (c :: rest) with
    | some (g1, g2, n) =>
      g1 ++ ' ' :: (P ++ '=' :: '"' :: (V ++ '"' :: g2 ::
        addPropGo C P V fuel (rest.drop (n - 1))))
    | none => c :: addPropGo C P V fuel rest

/-- `addProp` (helpers.ts:347-355). The scan consumes at least one character
per step, so `code.length` steps always suffice. -/
def addProp (code componentName propName propValue : List Char) : List Char :=
  addPropGo componentName propName propValue code.length code

/-! ### `removeProp` (helpers.ts:364-379)

The outer regex is `<NAME[^>]*\sPROP(?:=(?:"[^"]*"|'[^']*'))?[^>]*>`, global;
each match is rewritten by removing, inside the matched text, the first match
of the inner regex `\sPROP(?:=(?:"[^"]*"|'[^']*'))?`. -/

/-- Index of the first occurrence of a character. -/
def idxOfChar (q : Char) : List Char → Option Nat
  | [] => none
  | c :: rest => if c = q then some 0 else (idxOfChar q rest).map (· + 1)

/-- The quoted-value group `=(?:"[^"]*"|'[^']*')` anchored at the start of the
input (the "present" branch of the optional group); returns its length. The
double-quote alternative is tried first, as in the regex; each alternative is
deterministic (`[^"]*` must stop at the next `"`). -/
def tryQ : List Char → Option Nat
  | '=' :: c :: v =>
    if c = '"' then (idxOfChar '"' v).map (· + 3)
    else if c = singleQuoteChar then (idxOfChar singleQuoteChar v).map (· + 3)
    else none
  | _ => none

/-- The trailing `[^>]*>` of the outer `removeProp` regex anchored at the
start of the input: the greedy run of non-`>` characters, then a literal `>`
(the run cannot backtrack usefully, since every shorter run is followed by a
non-`>` character). Returns the consumed length. -/
def tryNoQ (u2 : List Char) : Option Nat :=
  match u2.drop (countNonGt u2) with
  | '>' :: _ => some (countNonGt u2 + 1)
  | _ => none

/-- The "present" branch of the greedy optional group followed by `[^>]*>`:
the quoted value, then the trailing part. Returns the consumed length. -/
def tryQWithRest (u2 : List Char) : Option Nat :=
  match tryQ u2 with
  | some qlen =>
    match tryNoQ (u2.drop qlen) with
    | some r => some (qlen + r)
    | none => none
  | none => none

/-- The part `(?:=(?:"[^"]*"|'[^']*'))?[^>]*>` of the outer `removeProp`
regex: the greedy optional group is tried with its value branch first and, if
the remainder then fails, with the empty branch. Returns the consumed
length. -/
def tryTailAfter (u2 : List Char) : Option Nat :=
  match tryQWithRest u2 with
  | some r => some r
  | none => tryNoQ u2

/-- The part `\sPROP(?:=...)?[^>]*>` of the outer `removeProp` regex anchored
at the start of `u`: one whitespace character, the literal prop name, then the
rest. Returns the consumed length. -/
def tryTail (P : List Char) : List Char → Option Nat
  | [] => none
  | w :: u' =>
    if isJsWs w && P.isPrefixOf u' then
      match tryTailAfter (u'.drop P.length) with
      | some r => some (1 + P.length + r)
      | none => none
    else none

/-- Backtracking of the first greedy `[^>]*` of the outer `removeProp` regex:
try the run length `k` from the maximum down to `0`; the largest `k` whose
tail matches wins. Returns `(k, tail length)`. -/
def tryA (P rest : List Char) : Nat → Option (Nat × Nat)
  | 0 => (tryTail P rest).map (fun tl => (0, tl))
  | k + 1 =>
    match tryTail P (rest.drop (k + 1)) with
    | some tl => some (k + 1, tl)
    | none => tryA P rest k

/-- Match of the outer `removeProp` regex anchored at the start of `s`;
returns the total matched length. -/
def removePropMatchAt (C P : List Char) (s : List Char) : Option Nat :=
  if ('<' :: C).isPrefixOf s then
    match tryA P (s.drop (C.length + 1)) (countNonGt (s.drop (C.length + 1))) with
    | some (k, tl) => some (C.length + 1 + k + tl)
    | none => none
  else none

/-- The replacement callback of `removeProp`: remove, from the matched text,
the first match of the inner regex `\sPROP(?:=(?:"[^"]*"|'[^']*'))?` (the
whitespace, the prop name, and the greedy optional quoted value). -/
def innerRemove (P : List Char) : List Char → List Char
  | [] => []
  | c :: rest =>
    if isJsWs c && P.isPrefixOf rest then
      rest.drop (P.length + (tryQ (rest.drop P.length)).getD 0)
    else c :: innerRemove P rest

/-- The global replace of `removeProp`: scan left to right; rewrite each outer
match through `innerRemove` and resume after it. Every match consumes at least
one character (its length is at least `C.length + 4`), so resuming after a
match of length `n` at `c :: rest` is resuming at `rest.drop (n - 1)`. -/
def removePropGo (C P : List Char) : Nat → List Char → List Char
  | _, [] => []
  | 0, l => l
  | fuel + 1, c :: rest =>
    match removePropMatchAt C P (c :: rest) with
    | some n =>
      innerRemove P ((c :: rest).take n) ++ removePropGo C P fuel (rest.drop (n - 1))
    | none => c :: removePropGo C P fuel rest

/-- `removeProp` (helpers.ts:364-379). The scan consumes at least one
character per step, so `code.length` steps always suffice. -/
def removeProp (code componentName propName : List Char) : List Char :=
  removePropGo componentName propName code.length code

/-! ## Directive registry (`DirectiveRegistry`) -/

/-- `DirectiveHandler` from `types.ts` (the handler returns a new source text
or `null`). -/
structure DirectiveHandler where
  name : String
  handler : List Char → Option (List Char)

/-- The `directives` field of `DirectiveRegistry`: the own properties of the
backing JS object, embedded as a lookup function. The object's prototype chain
(an object literal inherits from `Object.prototype`) is modelled separately by
`isObjectPrototypeKey` below. -/
abbrev Directives := String → Option DirectiveHandler

/-- Modelled from the host platform: the property keys of `Object.prototype`,
which the `in` operator sees through the prototype chain of every object
literal (including non-enumerable properties and the `__proto__` accessor). -/
def objectPrototypeKeys : List String :=
  ["constructor", "hasOwnProperty", "isPrototypeOf", "propertyIsEnumerable",
   "toLocaleString", "toString", "valueOf", "__proto__", "__defineGetter__",
   "__defineSetter__", "__lookupGetter__", "__lookupSetter__"]

/-- Membership in the keys of `Object.prototype`. -/
def isObjectPrototypeKey (name : String) : Bool :=
  objectPrototypeKeys.contains name

/-- The initial `directives` object (`{}`): no own properties. Its prototype
chain still carries `Object.prototype`, which `isDirective` sees. -/
def emptyDirectives : Directives := fun _ => none

/-- `register` (`this.directives[handler.name] = handler`): the assignment
creates or overwrites an own property under the handler's name, shadowing any
inherited one. (For the special inherited accessor key `__proto__` the source
assignment would instead mutate the object's prototype; that name lies outside
the modelled fragment, and the registry theorems assume it is not used.) -/
def register (d : Directives) (h : DirectiveHandler) : Directives :=
  fun n => if n = h.name then some h else d n

/-- `getDirective` (`this.directives[name]`): own-property lookup. (Reading a
name that is absent as an own property but inherited from `Object.prototype`
would return the inherited built-in function rather than `undefined` in the
source; no claim reads such a name, and that case lies outside the modelled
fragment.) -/
def getDirective (d : Directives) (name : String) : Option DirectiveHandler :=
  d name

/-- `isDirective` (`name in this.directives`): the `in` operator tests own
keys and every property inherited through the prototype chain — for an object
literal, the keys of `Object.prototype`. -/
def isDirective (d : Directives) (name : String) : Bool :=
  (d name).isSome || isObjectPrototypeKey name

/-- `clear` (`this.directives = {}`): a fresh object literal has no own
properties, but its prototype chain again carries `Object.prototype`, so
`isDirective` is not false on inherited keys such as `"toString"`. -/
def clearRegistry (_ : Directives) : Directives := fun _ => none

/-! ## Specification-side notions -/

/-- The forward scan of the source (helpers.ts:113-133), reformulated to
report the offset of the close brace at which its counter returns to zero
(`none` when the text ends first). This is the code's own scan — including its
naive escape check `code[i - 1] !== "\\"`, which treats any backslash-preceded
quote as escaped — in `Option` form; `scanForwardAux_eq_matching` below
relates it to `scanForward`. -/
def matchingCloseBraceAux (code : List Char) : Nat → Nat → Int → Bool → Char → Option Nat
  | 0, _, _, _, _ => none
  | fuel + 1, j, depth, inStr, sc =>
    if 0 < depth then
      match code[j]? with
      | some c =>
        let st := fwdStep code j c depth inStr sc
        if st.1 = 0 then some j
        else matchingCloseBraceAux code fuel (j + 1) st.1 st.2.1 st.2.2
      | none => none
    else none

/-- See `matchingCloseBraceAux`; entered at position `j` with
`code.length - j` characters remaining. -/
def matchingCloseBrace (code : List Char) (j : Nat) (depth : Int) (inStr : Bool) (sc : Char) :
    Option Nat :=
  matchingCloseBraceAux code (code.length - j) j depth inStr sc

/-- Length of the maximal run of backslashes immediately preceding position
`i` (looking left from `i - 1`). -/
def backslashRun (code : List Char) : Nat → Nat
  | 0 => 0
  | j + 1 => if code[j]? == some '\\' then backslashRun code j + 1 else 0

/-- Modelled from the spec (§4.1 step 3): one step of the quote automaton in
which "a quote character toggles string mode unless immediately preceded by an
unescaped backslash". A backslash is unescaped exactly when the maximal
backslash run ending at the quote has odd length; the spec's qualifier is
applied to both directions of the toggle, and a closing quote must match the
opening one (the spec tracks "single/double/template-quote string state").
Braces count only outside string mode. -/
def specFwdStep (code : List Char) (cbi : Nat) (c : Char) (bc : Int)
    (inStr : Bool) (sc : Char) : Int × Bool × Char :=
  let escaped : Bool := decide (backslashRun code cbi % 2 = 1)
  let opened : Bool :=
    !inStr && (c == '"' || c == singleQuoteChar || c == backtickChar) && !escaped
  let closed : Bool := !opened && inStr && c == sc && !escaped
  let inStr' : Bool := if opened then true else if closed then false else inStr
  let sc' : Char := if opened then c else sc
  (braceDelta c inStr' bc, inStr', sc')

/-- Modelled from the spec (§3 invariants, §4.1 step 3): the offset of the
closing brace that balances the opening brace just before position `j`,
"counting only braces outside of string/template literal regions" — string
regions delimited by the spec's quote automaton `specFwdStep` (unescaped
backslashes escape quotes). Starting from depth `depth` at position `j`, the
result is the first position at which the depth returns to zero; `none` when
the text ends first (malformed/unbalanced input). -/
def specCloseBraceAux (code : List Char) : Nat → Nat → Int → Bool → Char → Option Nat
  | 0, _, _, _, _ => none
  | fuel + 1, j, depth, inStr, sc =>
    if 0 < depth then
      match code[j]? with
      | some c =>
        let st := specFwdStep code j c depth inStr sc
        if st.1 = 0 then some j
        else specCloseBraceAux code fuel (j + 1) st.1 st.2.1 st.2.2
      | none => none
    else none

/-- See `specCloseBraceAux`; entered at position `j` with `code.length - j`
characters remaining. -/
def specCloseBrace (code : List Char) (j : Nat) (depth : Int) (inStr : Bool) (sc : Char) :
    Option Nat :=
  specCloseBraceAux code (code.length - j) j depth inStr sc

/-- `pat` occurs in `code` as a contiguous substring. -/
def OccursIn (pat code : List Char) : Prop :=
  ∃ l r, code = l ++ pat ++ r

/-! ## Concrete inputs used in counterexamples and witnesses -/

/-- A file whose only content is a top-level directive marker. -/
def topLevelMarkerCode : List Char := "\"use test\"".toList

/-- Two function declarations; the directive sits in the body of the second
(`bar`), while the first (`foo`) is the leftmost name-pattern occurrence. -/
def twoFunctionsCode : List Char :=
  "function foo() \x7b\x7d function bar() \x7b \"use test\" \x7d".toList

/-- A single function declaration holding the directive. -/
def oneFunctionCode : List Char := "function f() \x7b \"use test\" \x7d".toList

/-- The only brace before the marker lies inside the string literal assigned
to `a` (between the quotes at offsets 10 and 12). -/
def braceInStringCode : List Char := "const a = \"\x7b\"; \"use test\"".toList

/-- The directive name used by the concrete examples. -/
def testName : List Char := "test".toList

/-- A marker preceded only by whitespace, followed by a function holding a
second occurrence of the same marker. -/
def leadingWsMarkerCode : List Char :=
  "  \"use test\" function f() \x7b \"use test\" \x7d".toList

/-- A single self-closing component tag. -/
def buttonSelfClosing : List Char := "<Button/>".toList

/-- A function whose body contains the string literal `"a\\"` (an escaped
backslash right before the closing quote, at offsets 26-30) followed by the
closing brace at offset 32 and trailing text: the code's naive escape check
treats the quote at offset 30 as escaped, while the spec's unescaped-backslash
rule closes the string there. -/
def escapedBackslashCode : List Char :=
  "function f() \x7b \"use test\" \"a\\\\\" \x7d zz".toList

/-! ## Shared lemmas -/

/-- Boolean prefix test as an existence of a suffix. -/
theorem isPrefixOf_iff_exists (p : List Char) : ∀ l : List Char,
    p.isPrefixOf l = true ↔ ∃ r, l = p ++ r := by
  induction p with
  | nil =>
    intro l
    simp [List.isPrefixOf]
  | cons a p ih =>
    intro l
    cases l with
    | nil =>
      simp [List.isPrefixOf]
    | cons b l =>
      simp only [List.isPrefixOf, Bool.and_eq_true, beq_iff_eq, ih, List.cons_append,
        List.cons.injEq]
      constructor
      · rintro ⟨rfl, r, rfl⟩
        exact ⟨r, rfl, rfl⟩
      · rintro ⟨r, rfl, rfl⟩
        exact ⟨rfl, r, rfl⟩

/-- `includesSub` decides substring occurrence. -/
theorem includesSub_iff_occursIn (pat : List Char) : ∀ code : List Char,
    includesSub code pat = true ↔ OccursIn pat code := by
  intro code
  induction code with
  | nil =>
    simp only [includesSub, OccursIn, List.isEmpty_iff]
    constructor
    · rintro rfl
      exact ⟨[], [], rfl⟩
    · rintro ⟨l, r, h⟩
      rcases List.append_eq_nil.mp h.symm with ⟨h1, h2⟩
      rcases List.append_eq_nil.mp h1 with ⟨-, h3⟩
      exact h3
  | cons c rest ih =>
    simp only [includesSub, Bool.or_eq_true, isPrefixOf_iff_exists, ih]
    constructor
    · rintro (⟨r, hr⟩ | ⟨l, r, hlr⟩)
      · exact ⟨[], r, by simpa using hr⟩
      · exact ⟨c :: l, r, by simp [hlr]⟩
    · rintro ⟨l, r, hlr⟩
      cases l with
      | nil =>
        exact Or.inl ⟨r, by simpa using hlr⟩
      | cons x l =>
        have h2 : rest = l ++ pat ++ r := by
          have h3 := hlr
          simp only [List.cons_append, List.cons.injEq] at h3
          exact h3.2
        exact Or.inr ⟨l, r, h2⟩

/-- A pattern is contained in any text it prefixes. -/
theorem includesSub_of_isPrefixOf (pat s : List Char) (h : pat.isPrefixOf s = true) :
    includesSub s pat = true := by
  cases s with
  | nil =>
    rcases (isPrefixOf_iff_exists pat []).mp h with ⟨r, hr⟩
    rcases List.append_eq_nil.mp hr.symm with ⟨h1, -⟩
    simp [includesSub, h1]
  | cons c rest =>
    simp [includesSub, h]

/-! ## Claims -/

/-- C1, counterexample. The claim says: a marker whose backward scan finds no
opening brace makes `findScope` (`getDirectiveScope`) return the whole-file
`"global"` scope rather than null. On `"use test"` the marker occurs (at
offset 0, with match length 10), the backward scan finds no brace, and
`getDirectiveScope` returns `none` — there is no global fallback in the
code of `getDirectiveScope`. -/
theorem getDirectiveScope_topLevel_counterexample :
    execFrom topLevelMarkerCode testName 0 = some (0, 10) ∧
    scanBack topLevelMarkerCode 0 0 = none ∧
    getDirectiveScope topLevelMarkerCode testName = none := by
  refine ⟨by decide, rfl, by decide⟩

/-- C1, amended: when the marker occurs and the backward scan from its
occurrence finds no opening brace, `getDirectiveScope` returns `none`
(the `"global"` whole-file fallback exists only in `getAllDirectiveScopes`). -/
theorem getDirectiveScope_none_of_no_enclosing_brace (code name : List Char) (i len : Nat)
    (hexec : execFrom code name 0 = some (i, len))
    (hback : scanBack code i 0 = none) :
    getDirectiveScope code name = none := by
  unfold getDirectiveScope
  rw [hexec]
  show findFunctionScopeAtIndex code i = none
  unfold findFunctionScopeAtIndex
  rw [hback]

/-- C1, witness for the amended theorem at the concrete top-level input. -/
theorem getDirectiveScope_none_of_no_enclosing_brace_witness :
    getDirectiveScope topLevelMarkerCode testName = none :=
  getDirectiveScope_none_of_no_enclosing_brace topLevelMarkerCode testName 0 10
    (by decide) rfl

/-- C4, counterexample. The claim says every mutator never throws, for every
parameter value including regex metacharacters. But `replaceText` builds
`new RegExp(oldText, "g")`, and the parameter `"("` is an invalid pattern
(unterminated group): the constructor throws a `SyntaxError`. -/
theorem replaceText_throws_counterexample :
    replaceText ("hello".toList) ("(".toList) ("x".toList) = some (Except.error ()) := rfl

/-- C4, amended: a mutator parameter that forms an invalid regular expression
(such as `oldText = "("`) makes the mutator throw; for parameters that stay
literal — an `oldText` free of regex syntax characters and a `newText` free of
`$` — `replaceText` never throws, and it returns the input unchanged when the
pattern does not occur in the text as a substring. -/
theorem replaceText_total_identity_on_miss (code oldText newText : List Char)
    (hold : oldText.all (fun c => !isRegexSyntaxChar c) = true)
    (hnew : newText.contains '$' = false)
    (hmiss : ¬ OccursIn oldText code) :
    replaceText code oldText newText = some (Except.ok code) := by
  have hne : oldText ≠ [] := by
    rintro rfl
    exact hmiss ⟨[], code, rfl⟩
  have hnoparen : oldText.contains '(' = false := by
    cases hc : oldText.contains '(' with
    | false => rfl
    | true =>
      have hmem : '(' ∈ oldText := by
        simpa using hc
      have := List.all_eq_true.mp hold _ hmem
      simp [isRegexSyntaxChar] at this
  have hgo : ∀ (fuel : Nat) (l : List Char), ¬ OccursIn oldText l →
      replaceAllLitGo oldText newText fuel l = l := by
    intro fuel
    induction fuel with
    | zero =>
      intro l _
      cases l <;> rfl
    | succ fuel ih =>
      intro l hno
      cases l with
      | nil => rfl
      | cons c rest =>
        have hpre : oldText.isPrefixOf (c :: rest) = false := by
          cases hp : oldText.isPrefixOf (c :: rest) with
          | false => rfl
          | true =>
            rcases (isPrefixOf_iff_exists _ _).mp hp with ⟨r, hr⟩
            exact absurd ⟨[], r, by simpa using hr⟩ hno
        have hrest : ¬ OccursIn oldText rest := by
          intro hocc
          rcases hocc with ⟨l', r', hlr⟩
          exact hno ⟨c :: l', r', by simp [hlr]⟩
        rw [replaceAllLitGo, hpre]
        simp [ih rest hrest]
  unfold replaceText
  rw [show regexDefinitelyInvalid oldText = false by
    unfold regexDefinitelyInvalid
    rw [hnoparen]
    rfl]
  rw [if_neg (by simp)]
  rw [if_pos (by rw [hold, hnew]; rfl)]
  unfold jsReplaceLitG
  rw [if_neg (by simpa using hne)]
  rw [hgo code.length code hmiss]

/-- C4, witness for the amended theorem: a literal pattern that does not occur
leaves the text unchanged. -/
theorem replaceText_total_identity_on_miss_witness :
    replaceText ("hello".toList) ("xy".toList) ("z".toList) =
      some (Except.ok ("hello".toList)) :=
  replaceText_total_identity_on_miss ("hello".toList) ("xy".toList) ("z".toList)
    (by decide) (by decide)
    (fun h => absurd ((includesSub_iff_occursIn _ _).mpr h) (by decide))

/-- C7: `addImport` is idempotent (a second application of the identical
statement is the identity, because the first application leaves the statement
as a prefix of the text), and it is a no-op whenever the exact statement
string already occurs in the text. -/
theorem addImport_idempotent (code stmt : List Char) :
    addImport (addImport code stmt) stmt = addImport code stmt ∧
    (includesSub code stmt = true → addImport code stmt = code) := by
  constructor
  · by_cases h : includesSub code stmt = true
    · simp [addImport, h]
    · have h1 : addImport code stmt = stmt ++ '\n' :: code := by
        simp [addImport, h]
      have h2 : includesSub (stmt ++ '\n' :: code) stmt = true :=
        includesSub_of_isPrefixOf _ _ ((isPrefixOf_iff_exists _ _).mpr ⟨'\n' :: code, rfl⟩)
      rw [h1]
      simp [addImport, h2]
  · intro h
    simp [addImport, h]

/-- C7, witness: idempotence and the no-op case at concrete inputs. -/
theorem addImport_idempotent_witness :
    addImport (addImport ("const x = 1".toList) ("import R from \"r\"".toList))
        ("import R from \"r\"".toList) =
      addImport ("const x = 1".toList) ("import R from \"r\"".toList) ∧
    addImport ("import R from \"r\"; f()".toList) ("import R from \"r\"".toList) =
      "import R from \"r\"; f()".toList :=
  ⟨(addImport_idempotent ("const x = 1".toList) ("import R from \"r\"".toList)).1,
   (addImport_idempotent ("import R from \"r\"; f()".toList)
      ("import R from \"r\"".toList)).2 (by decide)⟩

/-- C8, counterexample. The claim says that after `clear()`, `isDirective`
returns false for every previously registered name. But `isDirective` is
`name in this.directives`, and the `in` operator sees the prototype chain: a
fresh object literal inherits `Object.prototype`, so for a registered name
such as `"toString"` the membership test stays true after `clear()` (it is
true even on the never-touched initial registry). -/
theorem register_clear_prototype_counterexample :
    isDirective
        (clearRegistry (register emptyDirectives ⟨"toString", fun c => some c⟩))
        "toString" = true ∧
    isDirective emptyDirectives "toString" = true ∧
    isObjectPrototypeKey "toString" = true := by
  exact ⟨by decide, by decide, by decide⟩

/-- C8, amended: registering a second handler under an already-registered name
(other than the special inherited accessor key `__proto__`) overwrites the
first, so `getDirective` returns the later entry; and after `clear()`,
`isDirective` returns false for every name that is not a key of
`Object.prototype` — for inherited keys such as `"toString"`, the `in` check
of `isDirective` remains true even after `clear()`. -/
theorem register_last_write_wins_and_clear (d : Directives) (a a' : DirectiveHandler)
    (hproto : a.name ≠ "__proto__") (h : a'.name = a.name) :
    getDirective (register (register d a) a') a.name = some a' ∧
    ∀ n : String, isObjectPrototypeKey n = false →
      isDirective (clearRegistry (register (register d a) a')) n = false := by
  refine ⟨?_, fun n hn => ?_⟩
  · simp [getDirective, register, h]
  · simp [isDirective, clearRegistry, hn]

/-- C8, witness at a concrete registry state (the name `cat` is not an
`Object.prototype` key). -/
theorem register_last_write_wins_and_clear_witness :
    getDirective
        (register (register emptyDirectives ⟨"cat", fun c => some c⟩)
          ⟨"cat", fun _ => none⟩) "cat" =
      some ⟨"cat", fun _ => none⟩ ∧
    isDirective
        (clearRegistry
          (register (register emptyDirectives ⟨"cat", fun c => some c⟩)
            ⟨"cat", fun _ => none⟩)) "cat" = false :=
  ⟨(register_last_write_wins_and_clear emptyDirectives ⟨"cat", fun c => some c⟩
      ⟨"cat", fun _ => none⟩ (by decide) rfl).1,
   (register_last_write_wins_and_clear emptyDirectives ⟨"cat", fun c => some c⟩
      ⟨"cat", fun _ => none⟩ (by decide) rfl).2 "cat" (by decide)⟩

/-- C9: `addImport`'s duplicate check is plain substring containment — the
text is returned unchanged exactly when the statement occurs anywhere in it as
a contiguous substring (even inside a comment or string literal), and
otherwise the statement plus a newline is prepended. -/
theorem addImport_plain_substring_check (code stmt : List Char) :
    (OccursIn stmt code → addImport code stmt = code) ∧
    (¬ OccursIn stmt code → addImport code stmt = stmt ++ '\n' :: code) := by
  constructor
  · intro h
    simp [addImport, (includesSub_iff_occursIn stmt code).mpr h]
  · intro h
    have hfalse : includesSub code stmt = false := by
      cases hb : includesSub code stmt with
      | false => rfl
      | true => exact absurd ((includesSub_iff_occursIn stmt code).mp hb) h
    simp [addImport, hfalse]

/-- C9, witness: an occurrence inside a line comment already suppresses the
import; a fresh statement is prepended with a newline. -/
theorem addImport_plain_substring_check_witness :
    addImport ("// import R\nx".toList) ("import R".toList) = "// import R\nx".toList ∧
    addImport ("const y = 2".toList) ("import R".toList) =
      "import R".toList ++ '\n' :: "const y = 2".toList :=
  ⟨(addImport_plain_substring_check ("// import R\nx".toList) ("import R".toList)).1
      ⟨"// ".toList, "\nx".toList, by decide⟩,
   (addImport_plain_substring_check ("const y = 2".toList) ("import R".toList)).2
      (fun h => absurd ((includesSub_iff_occursIn _ _).mpr h) (by decide))⟩

/-! ### Marker search: leftmost-match characterization -/

/-- The marker regex never matches at the end of the text. -/
theorem markerMatchLen_nil (name : List Char) : markerMatchLen name [] = none := rfl

/-- The marker regex does not match at a whitespace character (its first
literal character is `"`). -/
theorem markerMatchLen_none_of_ws_head (name : List Char) (c : Char) (rest : List Char)
    (hws : isJsWs c = true) : markerMatchLen name (c :: rest) = none := by
  have hcne : c ≠ '"' := by
    rintro rfl
    simp [isJsWs] at hws
  unfold markerMatchLen
  rw [if_neg]
  intro hp
  rcases (isPrefixOf_iff_exists _ _).mp hp with ⟨r, hr⟩
  rw [show ("\x22use".toList) = '"' :: 'u' :: 's' :: 'e' :: [] from rfl] at hr
  simp only [List.cons_append, List.cons.injEq] at hr
  exact hcne hr.1

/-- A position carrying a marker match is inside the text. -/
theorem markerMatchLen_some_lt (code name : List Char) (i len : Nat)
    (hm : markerMatchLen name (code.drop i) = some len) : i < code.length := by
  by_contra h
  rw [List.drop_eq_nil_of_le (by omega)] at hm
  rw [markerMatchLen_nil] at hm
  exact absurd hm (by simp)

/-- `exec` from `pos` returns the match at `i` when `i` carries a match and no
position in `[pos, i)` does. -/
theorem execFromAux_eq_some (code name : List Char) (i len : Nat)
    (hm : markerMatchLen name (code.drop i) = some len) :
    ∀ (fuel p : Nat), code.length - p = fuel → p ≤ i →
      (∀ j, p ≤ j → j < i → markerMatchLen name (code.drop j) = none) →
      execFromAux code name fuel p = some (i, len) := by
  have hilt : i < code.length := markerMatchLen_some_lt code name i len hm
  intro fuel
  induction fuel with
  | zero =>
    intro p hfuel hpi _
    omega
  | succ fuel ih =>
    intro p hfuel hpi hnone
    rw [execFromAux]
    by_cases hpi' : p = i
    · subst hpi'
      rw [hm]
    · rw [hnone p le_rfl (by omega)]
      exact ih (p + 1) (by omega) (by omega) (fun j h1 h2 => hnone j (by omega) h2)

/-- `exec` from position 0: the leftmost match wins. -/
theorem execFrom_zero_eq_some (code name : List Char) (i len : Nat)
    (hm : markerMatchLen name (code.drop i) = some len)
    (hnone : ∀ j, j < i → markerMatchLen name (code.drop j) = none) :
    execFrom code name 0 = some (i, len) :=
  execFromAux_eq_some code name i len hm (code.length - 0) 0 rfl (by omega)
    (fun j _ h2 => hnone j h2)

/-- C5: a marker occurrence preceded only by whitespace is necessarily the
first occurrence the scan of `getAllDirectiveScopes` meets, and its loop then
immediately returns the single whole-file `"global"` descriptor, whatever
other occurrences exist. -/
theorem getAllDirectiveScopes_global_of_ws_prefix (code name : List Char) (i len : Nat)
    (hname : name.all isDirNameChar = true)
    (hocc : markerMatchLen name (code.drop i) = some len)
    (hws : (code.take i).all isJsWs = true) :
    getAllDirectiveScopes code name = [⟨"global".toList, code, 0, code.length⟩] := by
  have hnone : ∀ j, j < i → markerMatchLen name (code.drop j) = none := by
    intro j hj
    have hjlt : j < code.length := by
      have := markerMatchLen_some_lt code name i len hocc
      omega
    have hdropj : code.drop j = code[j] :: code.drop (j + 1) :=
      List.drop_eq_getElem_cons hjlt
    have hmem : code[j] ∈ code.take i := by
      have h2 : j < (code.take i).length := by
        rw [List.length_take]
        omega
      have h3 := List.getElem_mem h2
      rwa [List.getElem_take] at h3
    have hwsj : isJsWs code[j] = true := List.all_eq_true.mp hws _ hmem
    rw [hdropj]
    exact markerMatchLen_none_of_ws_head name _ _ hwsj
  have hexec : execFrom code name 0 = some (i, len) :=
    execFrom_zero_eq_some code name i len hocc hnone
  unfold getAllDirectiveScopes
  rw [getAllDirectiveScopesAux, hexec]
  show (if i = 0 ∨ (code.take i).all isJsWs then [globalScope code]
    else _) = [⟨"global".toList, code, 0, code.length⟩]
  rw [if_pos (Or.inr hws)]
  rfl

/-- C5, witness: a file whose marker is preceded by two spaces (and which
contains a second, function-nested occurrence of the same marker). -/
theorem getAllDirectiveScopes_global_of_ws_prefix_witness :
    (("test".toList).all isDirNameChar = true ∧
      markerMatchLen ("test".toList) (leadingWsMarkerCode.drop 2) = some 10 ∧
      (leadingWsMarkerCode.take 2).all isJsWs = true) ∧
    getAllDirectiveScopes leadingWsMarkerCode ("test".toList) =
      [⟨"global".toList, leadingWsMarkerCode, 0, leadingWsMarkerCode.length⟩] :=
  ⟨⟨by decide, by decide, by decide⟩,
   getAllDirectiveScopes_global_of_ws_prefix leadingWsMarkerCode ("test".toList) 2 10
     (by decide) (by decide) (by decide)⟩

/-! ### Function-name recovery: leftmost-match characterization -/

/-- `String.match` without the `g` flag returns the match at the leftmost
matching position. -/
theorem findFnName_leftmost (s : List Char) (n : List Char) (h : findFnName s = some n) :
    ∃ p, fnMatchAt (s.drop p) = some n ∧ ∀ q, q < p → fnMatchAt (s.drop q) = none := by
  induction s with
  | nil => exact absurd h (by simp [findFnName])
  | cons c rest ih =>
    rw [findFnName] at h
    cases hm : fnMatchAt (c :: rest) with
    | some m =>
      rw [hm] at h
      have hmn : m = n := by simpa using h
      subst hmn
      exact ⟨0, by simpa using hm, fun q hq => absurd hq (Nat.not_lt_zero q)⟩
    | none =>
      rw [hm] at h
      rcases ih h with ⟨p, hp1, hp2⟩
      refine ⟨p + 1, by simpa [List.drop_succ_cons] using hp1, ?_⟩
      intro q hq
      cases q with
      | zero => simpa using hm
      | succ q' =>
        rw [List.drop_succ_cons]
        exact hp2 q' (by omega)

/-- C2, counterexample. The claim says the recovered function name comes from
the nearest `function <name>(` / `const <name> =` pattern ending at the
opening brace. In `function foo() {} function bar() { "use test" }` the
directive sits in `bar`'s body (its brace is at offset 33, and the `bar`
pattern matches at offset 18 of the preceding text), yet the scope is named
`foo`: `String.match` without `g` returns the leftmost match of the whole
preceding text, not the nearest one. -/
theorem getDirectiveScope_leftmost_name_counterexample :
    getDirectiveScope twoFunctionsCode testName =
      some ⟨"foo".toList, "\x7b \"use test\" \x7d".toList, 33, 47⟩ ∧
    fnMatchAt ((twoFunctionsCode.take 33).drop 18) = some ("bar".toList) := by
  exact ⟨by decide, by decide⟩

/-- C2, amended: the name of a resolved scope is recovered from the leftmost
(first) occurrence of the pattern `function <name>(` / `const <name> =` in the
whole text preceding the opening brace — no earlier position matches — rather
than from the nearest pattern ending at the brace. -/
theorem findFunctionScopeAtIndex_name_leftmost (code : List Char) (i : Nat)
    (s : DirectiveScope) (h : findFunctionScopeAtIndex code i = some s) :
    ∃ p, fnMatchAt ((code.take s.startIndex).drop p) = some s.functionName ∧
      ∀ q, q < p → fnMatchAt ((code.take s.startIndex).drop q) = none := by
  unfold findFunctionScopeAtIndex at h
  cases hsb : scanBack code i 0 with
  | none => simp only [hsb] at h; exact absurd h (by simp)
  | some fs =>
    simp only [hsb] at h
    cases hfn : findFnName (code.take fs) with
    | none => simp only [hfn] at h; exact absurd h (by simp)
    | some nm =>
      simp only [hfn, Option.some.injEq] at h
      subst h
      exact findFnName_leftmost (code.take fs) nm hfn

/-- C2, witness for the amended theorem at the two-function input (the
leftmost pattern names `foo`). -/
theorem findFunctionScopeAtIndex_name_leftmost_witness :
    ∃ p, fnMatchAt ((twoFunctionsCode.take 33).drop p) = some ("foo".toList) ∧
      ∀ q, q < p → fnMatchAt ((twoFunctionsCode.take 33).drop q) = none :=
  findFunctionScopeAtIndex_name_leftmost twoFunctionsCode 35
    ⟨"foo".toList, "\x7b \"use test\" \x7d".toList, 33, 47⟩ (by decide)

/-! ### Forward scan and the balancing close brace -/

/-- The brace counter never drops by more than one in a step. -/
theorem braceDelta_ge (c : Char) (b : Bool) (bc : Int) : bc - 1 ≤ braceDelta c b bc := by
  unfold braceDelta
  split_ifs <;> omega

/-- A step that strictly lowers the brace counter reads a `}`. -/
theorem braceDelta_lt (c : Char) (b : Bool) (bc : Int) (h : braceDelta c b bc < bc) :
    c = '\x7d' := by
  unfold braceDelta at h
  split_ifs at h with h1 h2 h3
  · omega
  · omega
  · simpa using h3
  · omega

/-- The forward step never drops the brace counter by more than one. -/
theorem fwdStep_ge (code : List Char) (cbi : Nat) (c : Char) (bc : Int)
    (inStr : Bool) (sc : Char) : bc - 1 ≤ (fwdStep code cbi c bc inStr sc).1 :=
  braceDelta_ge c _ bc

/-- A step that strictly lowers the brace counter reads a `}`. -/
theorem fwdStep_lt (code : List Char) (cbi : Nat) (c : Char) (bc : Int)
    (inStr : Bool) (sc : Char) (h : (fwdStep code cbi c bc inStr sc).1 < bc) :
    c = '\x7d' :=
  braceDelta_lt c _ bc h

/-- A scan entered with a non-positive counter stops at once. -/
theorem scanForwardAux_nonpos (code : List Char) (fuel p : Nat) (bc : Int)
    (inStr : Bool) (sc : Char) (h : ¬ 0 < bc) :
    scanForwardAux code fuel p bc inStr sc = p := by
  cases fuel with
  | zero => rfl
  | succ fuel => rw [scanForwardAux, if_neg h]

/-- The forward scan of the source equals the spec-side balancing-brace
search: it stops one past the balancing close brace, or at the end of the text
when no brace balances. (`fuel` is exactly the number of remaining
characters.) -/
theorem scanForwardAux_eq_matching (code : List Char) :
    ∀ (fuel cbi : Nat) (bc : Int) (inStr : Bool) (sc : Char), 0 < bc →
      code.length = cbi + fuel →
      scanForwardAux code fuel cbi bc inStr sc =
        ((matchingCloseBraceAux code fuel cbi bc inStr sc).map (· + 1)).getD
          code.length := by
  intro fuel
  induction fuel with
  | zero =>
    intro cbi bc inStr sc hbc hlen
    simp only [scanForwardAux, matchingCloseBraceAux, Option.map_none', Option.getD_none]
    omega
  | succ fuel ih =>
    intro cbi bc inStr sc hbc hlen
    have hcbi : cbi < code.length := by omega
    have hget : code[cbi]? = some code[cbi] := List.getElem?_eq_getElem hcbi
    rw [scanForwardAux, if_pos hbc, matchingCloseBraceAux, if_pos hbc]
    simp only [hget]
    by_cases hz : (fwdStep code cbi code[cbi] bc inStr sc).1 = 0
    · rw [if_pos hz]
      simp only [Option.map_some', Option.getD_some]
      show scanForwardAux code fuel (cbi + 1)
        (fwdStep code cbi code[cbi] bc inStr sc).1 _ _ = cbi + 1
      rw [hz]
      exact scanForwardAux_nonpos code fuel (cbi + 1) 0 _ _ (by omega)
    · rw [if_neg hz]
      have hge := fwdStep_ge code cbi code[cbi] bc inStr sc
      exact ih (cbi + 1) _ _ _ (by omega) (by omega)

/-- A balancing brace found by the spec-side search is a `}`. -/
theorem matchingCloseBraceAux_brace (code : List Char) :
    ∀ (fuel j : Nat) (depth : Int) (inStr : Bool) (sc : Char) (r : Nat),
      matchingCloseBraceAux code fuel j depth inStr sc = some r →
      code[r]? = some '\x7d' := by
  intro fuel
  induction fuel with
  | zero =>
    intro j depth inStr sc r h
    exact absurd h (by simp [matchingCloseBraceAux])
  | succ fuel ih =>
    intro j depth inStr sc r h
    rw [matchingCloseBraceAux] at h
    by_cases hd : 0 < depth
    · rw [if_pos hd] at h
      cases hg : code[j]? with
      | none => simp only [hg] at h; exact absurd h (by simp)
      | some c =>
        simp only [hg] at h
        by_cases hz : (fwdStep code j c depth inStr sc).1 = 0
        · rw [if_pos hz] at h
          have hrj : r = j := by simpa using h.symm
          subst hrj
          have hc : c = '\x7d' :=
            fwdStep_lt code r c depth inStr sc (by omega)
          rw [hg, hc]
        · rw [if_neg hz] at h
          exact ih _ _ _ _ _ h
    · rw [if_neg hd] at h
      exact absurd h (by simp)

/-- The opening brace found by the backward scan is a `{`. -/
theorem scanBack_brace (code : List Char) :
    ∀ (n : Nat) (bc : Int) (j : Nat), scanBack code n bc = some j →
      code[j]? = some '\x7b' := by
  intro n
  induction n with
  | zero => intro bc j h; exact absurd h (by simp [scanBack])
  | succ m ih =>
    intro bc j h
    rw [scanBack] at h
    cases hc : code[m]? with
    | none => simp only [hc] at h; exact ih _ _ h
    | some c =>
      simp only [hc] at h
      split_ifs at h with h1 h2 h3
      · exact ih _ _ h
      · have hmj : m = j := by simpa using h
        subst hmj
        rw [hc, h2]
      · exact ih _ _ h
      · exact ih _ _ h

/-- An index holding a character is inside the text. -/
theorem lt_length_of_getElem?_eq_some (l : List Char) (n : Nat) (a : Char)
    (h : l[n]? = some a) : n < l.length := by
  by_contra hn
  rw [List.getElem?_eq_none (by omega)] at h
  exact absurd h (by simp)

/-- Characterization of a resolved scope's offsets: `startIndex` holds a `{`,
and `endIndex` is one past the balancing close brace (or the text length when
none balances). -/
theorem findFunctionScopeAtIndex_offsets (code : List Char) (i : Nat) (s : DirectiveScope)
    (h : findFunctionScopeAtIndex code i = some s) :
    code[s.startIndex]? = some '\x7b' ∧
    ((∃ j, matchingCloseBrace code (s.startIndex + 1) 1 false ' ' = some j ∧
        code[j]? = some '\x7d' ∧ s.endIndex = j + 1) ∨
     (matchingCloseBrace code (s.startIndex + 1) 1 false ' ' = none ∧
        s.endIndex = code.length)) := by
  unfold findFunctionScopeAtIndex at h
  cases hsb : scanBack code i 0 with
  | none => simp only [hsb] at h; exact absurd h (by simp)
  | some fs =>
    simp only [hsb] at h
    cases hfn : findFnName (code.take fs) with
    | none => simp only [hfn] at h; exact absurd h (by simp)
    | some nm =>
      simp only [hfn, Option.some.injEq] at h
      subst h
      have hbr : code[fs]? = some '\x7b' := scanBack_brace code i 0 fs hsb
      refine ⟨hbr, ?_⟩
      have hfs : fs < code.length := lt_length_of_getElem?_eq_some code fs _ hbr
      have heq := scanForwardAux_eq_matching code (code.length - (fs + 1)) (fs + 1) 1
        false ' ' (by omega) (by omega)
      show (∃ j, matchingCloseBrace code (fs + 1) 1 false ' ' = some j ∧
          code[j]? = some '\x7d' ∧ scanForward code (fs + 1) 1 false ' ' = j + 1) ∨
        (matchingCloseBrace code (fs + 1) 1 false ' ' = none ∧
          scanForward code (fs + 1) 1 false ' ' = code.length)
      unfold scanForward matchingCloseBrace
      cases hm : matchingCloseBraceAux code (code.length - (fs + 1)) (fs + 1) 1 false ' ' with
      | some j =>
        left
        refine ⟨j, rfl, matchingCloseBraceAux_brace code _ _ _ _ _ _ hm, ?_⟩
        rw [heq, hm]
        rfl
      | none =>
        right
        refine ⟨rfl, ?_⟩
        rw [heq, hm]
        rfl

/-- Every scope returned by `getDirectiveScope` comes from
`findFunctionScopeAtIndex`. -/
theorem getDirectiveScope_from_find (code name : List Char) (s : DirectiveScope)
    (h : getDirectiveScope code name = some s) :
    ∃ i, findFunctionScopeAtIndex code i = some s := by
  unfold getDirectiveScope at h
  cases he : execFrom code name 0 with
  | none => simp only [he] at h; exact absurd h (by simp)
  | some pr =>
    obtain ⟨i, len⟩ := pr
    simp only [he] at h
    exact ⟨i, h⟩

/-- Every scope collected by `getAllDirectiveScopes` is the global descriptor
or comes from `findFunctionScopeAtIndex`. -/
theorem getAllDirectiveScopesAux_mem (code name : List Char) :
    ∀ (fuel pos : Nat) (scopes : List DirectiveScope) (s : DirectiveScope),
      s ∈ getAllDirectiveScopesAux code name fuel pos scopes →
      s ∈ scopes ∨ s = globalScope code ∨
        ∃ i, findFunctionScopeAtIndex code i = some s := by
  intro fuel
  induction fuel with
  | zero => intro pos scopes s h; exact Or.inl h
  | succ fuel ih =>
    intro pos scopes s h
    rw [getAllDirectiveScopesAux] at h
    cases he : execFrom code name pos with
    | none => simp only [he] at h; exact Or.inl h
    | some pr =>
      obtain ⟨i, len⟩ := pr
      simp only [he] at h
      by_cases hc : i = 0 ∨ (code.take i).all isJsWs
      · rw [if_pos hc] at h
        have : s = globalScope code := by simpa using h
        exact Or.inr (Or.inl this)
      · rw [if_neg hc] at h
        cases hf : findFunctionScopeAtIndex code i with
        | some s' =>
          simp only [hf] at h
          rcases ih _ _ _ h with h1 | h2 | h3
          · rcases List.mem_append.mp h1 with h4 | h5
            · exact Or.inl h4
            · have : s = s' := by simpa using h5
              subst this
              exact Or.inr (Or.inr ⟨i, hf⟩)
          · exact Or.inr (Or.inl h2)
          · exact Or.inr (Or.inr h3)
        | none =>
          simp only [hf] at h
          exact ih _ _ _ h

/-- An index holding a character holds a member of the list. -/
theorem mem_of_getElem_eq_some (l : List Char) (n : Nat) (a : Char)
    (h : l[n]? = some a) : a ∈ l := by
  rcases List.getElem?_eq_some_iff.mp h with ⟨hn, he⟩
  rw [← he]
  exact List.getElem_mem hn

/-- A backslash-free text has no backslash runs. -/
theorem backslashRun_eq_zero (code : List Char) (h : '\\' ∉ code) :
    ∀ i, backslashRun code i = 0 := by
  intro i
  induction i with
  | zero => rfl
  | succ j ih =>
    rw [backslashRun]
    cases hg : code[j]? with
    | none => simp
    | some c =>
      have hc : c ≠ '\\' := fun hc => h (hc ▸ mem_of_getElem_eq_some code j c hg)
      simp [hg, hc]

/-- On a backslash-free text, the spec's quote automaton (unescaped-backslash
escaping) and the code's (any preceding backslash escapes) take the same
step: both escape checks are vacuously false. -/
theorem specFwdStep_eq_fwdStep (code : List Char) (cbi : Nat) (c : Char) (bc : Int)
    (inStr : Bool) (sc : Char) (h : '\\' ∉ code) :
    specFwdStep code cbi c bc inStr sc = fwdStep code cbi c bc inStr sc := by
  have e1 : decide (backslashRun code cbi % 2 = 1) = false := by
    rw [backslashRun_eq_zero code h cbi]
    rfl
  have e2 : (code[cbi - 1]? == some '\\') = false := by
    cases hg : code[cbi - 1]? with
    | none => rfl
    | some x =>
      have hx : x ≠ '\\' := fun hx => h (hx ▸ mem_of_getElem_eq_some code (cbi - 1) x hg)
      simp [hx]
  unfold specFwdStep fwdStep
  rw [e1, e2]
  simp

/-- On a backslash-free text, the spec-side balancing-brace search coincides
with the code's scan. -/
theorem specCloseBraceAux_eq_matching (code : List Char) (h : '\\' ∉ code) :
    ∀ (fuel j : Nat) (depth : Int) (inStr : Bool) (sc : Char),
      specCloseBraceAux code fuel j depth inStr sc =
        matchingCloseBraceAux code fuel j depth inStr sc := by
  intro fuel
  induction fuel with
  | zero => intro j depth inStr sc; rfl
  | succ fuel ih =>
    intro j depth inStr sc
    rw [specCloseBraceAux, matchingCloseBraceAux]
    by_cases hd : 0 < depth
    · rw [if_pos hd, if_pos hd]
      cases hg : code[j]? with
      | none => rfl
      | some c =>
        simp only [specFwdStep_eq_fwdStep code j c depth inStr sc h, ih]
    · rw [if_neg hd, if_neg hd]

/-- C3, counterexample. The claim says a returned scope's `endOffset` is the
offset of the close brace that balances the one at `startOffset`, counting
braces outside string regions. Two divergences refute it on the code. First,
an off-by-one: in `function f() { "use test" }` the brace at offset 13 is
balanced by the `}` at offset 26, but the returned `endIndex` is 27 — one past
the balancing brace (the exclusive end of the returned `functionCode`).
Second, the escape rule: in `function f() { "use test" "a\\" } zz` the spec's
string regions (a quote is escaped only by an unescaped backslash) end the
inner string at the quote in offset 30 and balance the brace at offset 32, but
the code treats any backslash-preceded quote as escaped, never leaves the
string, and clamps `endIndex` to the text length 36. -/
theorem scope_endOffset_counterexample :
    (getDirectiveScope oneFunctionCode testName).map DirectiveScope.startIndex =
      some 13 ∧
    (getDirectiveScope oneFunctionCode testName).map DirectiveScope.endIndex =
      some 27 ∧
    matchingCloseBrace oneFunctionCode 14 1 false ' ' = some 26 ∧
    oneFunctionCode[26]? = some '\x7d' ∧
    (getDirectiveScope escapedBackslashCode testName).map DirectiveScope.endIndex =
      some 36 ∧
    specCloseBrace escapedBackslashCode 14 1 false ' ' = some 32 ∧
    escapedBackslashCode[32]? = some '\x7d' ∧
    matchingCloseBrace escapedBackslashCode 14 1 false ' ' = none := by
  exact ⟨by decide, by decide, by decide, rfl, by decide, by decide, rfl, by decide⟩

/-- C3, amended: for every scope returned by `getDirectiveScope`, or collected
by `getAllDirectiveScopes` other than the global one, `startOffset` holds the
opening brace and `endOffset` is one past the offset of the close brace that
balances it — counting only braces outside single-quote, double-quote and
template-literal regions per the spec's quote automaton, in which only an
unescaped backslash escapes a quote — provided the text contains no backslash
(where the code's naive any-preceding-backslash escape check agrees with the
spec's rule; on escaped-backslash inputs the two diverge, as the
counterexample shows); when no brace balances, `endOffset` is clamped to the
text length. -/
theorem scope_endOffset_one_past_balancing (code name : List Char) (s : DirectiveScope)
    (hesc : '\\' ∉ code)
    (h : getDirectiveScope code name = some s ∨
      (s ∈ getAllDirectiveScopes code name ∧ s ≠ globalScope code)) :
    code[s.startIndex]? = some '\x7b' ∧
    ((∃ j, specCloseBrace code (s.startIndex + 1) 1 false ' ' = some j ∧
        code[j]? = some '\x7d' ∧ s.endIndex = j + 1) ∨
     (specCloseBrace code (s.startIndex + 1) 1 false ' ' = none ∧
        s.endIndex = code.length)) := by
  have heq : specCloseBrace code (s.startIndex + 1) 1 false ' ' =
      matchingCloseBrace code (s.startIndex + 1) 1 false ' ' := by
    unfold specCloseBrace matchingCloseBrace
    exact specCloseBraceAux_eq_matching code hesc _ _ _ _ _
  rw [heq]
  have hex : ∃ i, findFunctionScopeAtIndex code i = some s := by
    rcases h with h | ⟨hmem, hne⟩
    · exact getDirectiveScope_from_find code name s h
    · rcases getAllDirectiveScopesAux_mem code name _ 0 [] s hmem with h1 | h2 | h3
      · exact absurd h1 (by simp)
      · exact absurd h2 hne
      · exact h3
  rcases hex with ⟨i, hi⟩
  exact findFunctionScopeAtIndex_offsets code i s hi

/-- C3, witness for the amended theorem at the (backslash-free) one-function
input. -/
theorem scope_endOffset_one_past_balancing_witness :
    oneFunctionCode[(13 : Nat)]? = some '\x7b' ∧
    ((∃ j, specCloseBrace oneFunctionCode (13 + 1) 1 false ' ' = some j ∧
        oneFunctionCode[j]? = some '\x7d' ∧ (27 : Nat) = j + 1) ∨
     (specCloseBrace oneFunctionCode (13 + 1) 1 false ' ' = none ∧
        (27 : Nat) = oneFunctionCode.length)) :=
  scope_endOffset_one_past_balancing oneFunctionCode testName
    ⟨"f".toList, "\x7b \"use test\" \x7d".toList, 13, 27⟩ (by decide) (Or.inl (by decide))

/-- C10: the backward scan of `findFunctionScopeAtIndex` counts braces inside
string literals. In `const a = "{"; "use test"` the only brace before the
marker is the `{` at offset 11, inside the string literal `"{"` (between the
quotes at offsets 10 and 12); `getDirectiveScope` takes it as the scope start
(and the forward scan, which does track strings, then runs to the end of the
text without balancing, clamping `endIndex` to the length, 25). -/
theorem scanBack_counts_braces_inside_strings :
    getDirectiveScope braceInStringCode testName =
      some ⟨"a".toList, "\x7b\"; \"use test\"".toList, 11, 25⟩ ∧
    braceInStringCode[10]? = some '"' ∧
    braceInStringCode[11]? = some '\x7b' ∧
    braceInStringCode[12]? = some '"' ∧
    (braceInStringCode.take 15).count '\x7b' = 1 ∧
    (braceInStringCode.take 15).count '\x7d' = 0 := by
  refine ⟨by decide, rfl, rfl, rfl, by decide, by decide⟩

/-! ### `addProp` / `removeProp` round trip -/

/-- A list prefixes its own extension. -/
theorem isPrefixOf_append_self (p r : List Char) : p.isPrefixOf (p ++ r) = true :=
  (isPrefixOf_iff_exists p (p ++ r)).mpr ⟨r, rfl⟩

/-- A nonempty pattern cannot prefix a list starting with a different head. -/
theorem not_isPrefixOf_cons_of_ne (a c : Char) (p rest : List Char) (h : c ≠ a) :
    (a :: p).isPrefixOf (c :: rest) = false := by
  cases hp : (a :: p).isPrefixOf (c :: rest) with
  | false => rfl
  | true =>
    rcases (isPrefixOf_iff_exists _ _).mp hp with ⟨r, hr⟩
    simp only [List.cons_append, List.cons.injEq] at hr
    exact absurd hr.1 h

/-- Unpacking the benign-character predicate. -/
theorem isTagNameChar_spec (c : Char) (h : isTagNameChar c = true) :
    isJsWs c = false ∧ c ≠ '>' ∧ c ≠ '<' ∧ c ≠ '/' ∧ c ≠ '=' ∧ c ≠ '"' ∧
      c ≠ singleQuoteChar := by
  unfold isTagNameChar at h
  simp only [Bool.and_eq_true, Bool.not_eq_true', beq_eq_false_iff_ne] at h
  exact ⟨h.1.1.1.1.1.1.1, h.1.1.1.1.2, h.1.1.1.1.1.2, h.1.1.1.2, h.1.1.2, h.1.2, h.2⟩

/-- The `addProp` matcher needs a `<` to start. -/
theorem addPropMatchAt_none (C : List Char) (c : Char) (rest : List Char) (h : c ≠ '<') :
    addPropMatchAt C (c :: rest) = none := by
  unfold addPropMatchAt
  rw [not_isPrefixOf_cons_of_ne '<' c C rest h]
  rfl

/-- The outer `removeProp` matcher needs a `<` to start. -/
theorem removePropMatchAt_none (C P : List Char) (c : Char) (rest : List Char)
    (h : c ≠ '<') : removePropMatchAt C P (c :: rest) = none := by
  unfold removePropMatchAt
  rw [not_isPrefixOf_cons_of_ne '<' c C rest h]
  rfl

/-- The `addProp` scan passes over a `<`-free prefix unchanged. -/
theorem addPropGo_append (C P V pre : List Char) (hpre : ∀ c ∈ pre, c ≠ '<') :
    ∀ (fuel : Nat) (l : List Char),
      addPropGo C P V (pre.length + fuel) (pre ++ l) = pre ++ addPropGo C P V fuel l := by
  induction pre with
  | nil => intro fuel l; simp
  | cons p pre ih =>
    intro fuel l
    have hp : p ≠ '<' := hpre p (by simp)
    have h1 : (p :: pre).length + fuel = (pre.length + fuel) + 1 := by
      simp only [List.length_cons]
      omega
    rw [h1, List.cons_append, addPropGo]
    simp only [addPropMatchAt_none C p _ hp]
    rw [ih (fun c hc => hpre c (by simp [hc])) fuel l]
    simp

/-- The `addProp` scan leaves a `<`-free text unchanged. -/
theorem addPropGo_id (C P V : List Char) :
    ∀ (l : List Char), (∀ c ∈ l, c ≠ '<') → ∀ (fuel : Nat),
      addPropGo C P V fuel l = l := by
  intro l
  induction l with
  | nil => intro _ fuel; cases fuel <;> rfl
  | cons c rest ih =>
    intro hl fuel
    cases fuel with
    | zero => rfl
    | succ fuel =>
      rw [addPropGo]
      simp only [addPropMatchAt_none C c rest (hl c (by simp))]
      rw [ih (fun x hx => hl x (by simp [hx])) fuel]

/-- The `removeProp` scan passes over a `<`-free prefix unchanged. -/
theorem removePropGo_append (C P pre : List Char) (hpre : ∀ c ∈ pre, c ≠ '<') :
    ∀ (fuel : Nat) (l : List Char),
      removePropGo C P (pre.length + fuel) (pre ++ l) = pre ++ removePropGo C P fuel l := by
  induction pre with
  | nil => intro fuel l; simp
  | cons p pre ih =>
    intro fuel l
    have hp : p ≠ '<' := hpre p (by simp)
    have h1 : (p :: pre).length + fuel = (pre.length + fuel) + 1 := by
      simp only [List.length_cons]
      omega
    rw [h1, List.cons_append, removePropGo]
    simp only [removePropMatchAt_none C P p _ hp]
    rw [ih (fun c hc => hpre c (by simp [hc])) fuel l]
    simp

/-- The `removeProp` scan leaves a `<`-free text unchanged. -/
theorem removePropGo_id (C P : List Char) :
    ∀ (l : List Char), (∀ c ∈ l, c ≠ '<') → ∀ (fuel : Nat),
      removePropGo C P fuel l = l := by
  intro l
  induction l with
  | nil => intro _ fuel; cases fuel <;> rfl
  | cons c rest ih =>
    intro hl fuel
    cases fuel with
    | zero => rfl
    | succ fuel =>
      rw [removePropGo]
      simp only [removePropMatchAt_none C P c rest (hl c (by simp))]
      rw [ih (fun x hx => hl x (by simp [hx])) fuel]

/-- Dropping an appended prefix plus `k` more characters. -/
theorem drop_length_add_append (x y : List Char) (k : Nat) :
    (x ++ y).drop (x.length + k) = y.drop k := by
  rw [← List.drop_drop, List.drop_left]

/-- The greedy non-`>` run over a `>`-terminated block. -/
theorem countNonGt_append (x y : List Char) (hx : ∀ c ∈ x, c ≠ '>') :
    countNonGt (x ++ '>' :: y) = x.length := by
  induction x with
  | nil => simp [countNonGt]
  | cons c rest ih =>
    rw [List.cons_append, countNonGt, if_neg (hx c (by simp))]
    rw [ih (fun a ha => hx a (by simp [ha]))]
    simp

/-- First occurrence of the closing quote after a quote-free block. -/
theorem idxOfChar_append (q : Char) (v y : List Char) (hv : ∀ c ∈ v, c ≠ q) :
    idxOfChar q (v ++ q :: y) = some v.length := by
  induction v with
  | nil => simp [idxOfChar]
  | cons c rest ih =>
    rw [List.cons_append, idxOfChar, if_neg (hv c (by simp))]
    rw [ih (fun a ha => hv a (by simp [ha]))]
    simp

/-- The quoted-value group on a quote-free value. -/
theorem tryQ_eq (V y : List Char) (hV : ∀ c ∈ V, c ≠ '"') :
    tryQ ('=' :: '"' :: (V ++ '"' :: y)) = some (V.length + 3) := by
  show (idxOfChar '"' (V ++ '"' :: y)).map (· + 3) = some (V.length + 3)
  rw [idxOfChar_append '"' V y hV]
  rfl

/-- The trailing `[^>]*>` right after the quoted value. -/
theorem tryNoQ_slash (post : List Char) : tryNoQ ('/' :: '>' :: post) = some 2 := rfl

/-- The optional group plus trailing part on the inserted attribute text. -/
theorem tryTailAfter_eq (V post : List Char) (hV : ∀ c ∈ V, c ≠ '"') :
    tryTailAfter ('=' :: '"' :: (V ++ '"' :: '/' :: '>' :: post)) =
      some (V.length + 5) := by
  have hdrop : ('=' :: '"' :: (V ++ '"' :: '/' :: '>' :: post)).drop (V.length + 3) =
      '/' :: '>' :: post := by
    show (V ++ '"' :: ('/' :: '>' :: post)).drop (V.length + 1) = '/' :: '>' :: post
    rw [drop_length_add_append]
    rfl
  unfold tryTailAfter tryQWithRest
  rw [tryQ_eq V ('/' :: '>' :: post) hV]
  simp only [hdrop, tryNoQ_slash]

/-- The tail of the outer `removeProp` regex on the inserted attribute. -/
theorem tryTail_eq (P V post : List Char) (hV : ∀ c ∈ V, c ≠ '"') :
    tryTail P (' ' :: (P ++ '=' :: '"' :: (V ++ '"' :: '/' :: '>' :: post))) =
      some (P.length + V.length + 6) := by
  rw [tryTail]
  rw [if_pos (by rw [show isJsWs ' ' = true from rfl, isPrefixOf_append_self]; rfl)]
  rw [List.drop_left]
  simp only [tryTailAfter_eq V post hV]
  try rw [show 1 + P.length + (V.length + 5) = P.length + V.length + 6 by omega]

/-- The tail matcher fails where no whitespace starts it. -/
theorem tryTail_none_head (P : List Char) (u : List Char)
    (h : ∀ c, u.head? = some c → isJsWs c = false) : tryTail P u = none := by
  cases u with
  | nil => rfl
  | cons w u' =>
    have hw : isJsWs w = false := h w rfl
    rw [tryTail, hw]
    rfl

/-- When every positive run length fails, the greedy backtracking of the
first `[^>]*` lands on the empty run. -/
theorem tryA_of_fail (P R : List Char) :
    ∀ (k : Nat), (∀ j, 1 ≤ j → j ≤ k → tryTail P (R.drop j) = none) →
      tryA P R k = (tryTail P R).map (fun tl => (0, tl)) := by
  intro k
  induction k with
  | zero => intro _; rfl
  | succ k ih =>
    intro hfail
    rw [tryA]
    simp only [hfail (k + 1) (by omega) le_rfl]
    exact ih (fun j h1 h2 => hfail j h1 (by omega))

/-- The `addProp` matcher on a self-closing tag of the component: the optional
group is skipped (a `/` follows the name) and group 2 is the `/`. -/
theorem addPropMatchAt_tag (C rest2 : List Char) :
    addPropMatchAt C (('<' :: C) ++ '/' :: rest2) = some ('<' :: C, '/', C.length + 2) := by
  unfold addPropMatchAt
  rw [isPrefixOf_append_self, if_pos rfl]
  rw [List.drop_left' (by simp)]
  rfl

/-- `addProp` turns the self-closing tag into the same tag carrying the new
attribute, and leaves the `<`-free remainder alone. -/
theorem addPropGo_tag (C P V post : List Char) (hpost : ∀ c ∈ post, c ≠ '<')
    (fuel : Nat) :
    addPropGo C P V (fuel + 1) ('<' :: (C ++ '/' :: '>' :: post)) =
      '<' :: (C ++ ' ' :: (P ++ '=' :: '"' :: (V ++ '"' :: '/' :: '>' :: post))) := by
  have hsplit : '<' :: (C ++ '/' :: '>' :: post) = ('<' :: C) ++ '/' :: '>' :: post := by
    simp
  rw [addPropGo, hsplit]
  simp only [addPropMatchAt_tag C ('>' :: post)]
  have hdrop : (C ++ '/' :: '>' :: post).drop (C.length + 2 - 1) = '>' :: post := by
    rw [show C.length + 2 - 1 = C.length + 1 by omega]
    rw [drop_length_add_append]
    rfl
  rw [hdrop]
  rw [addPropGo_id C P V ('>' :: post)
    (fun c hc => by
      rcases List.mem_cons.mp hc with rfl | hmem
      · decide
      · exact hpost c hmem) fuel]
  simp

/-- The characters of the attribute block between the tag's `<C` and its `>`
are not whitespace. -/
theorem attrBlock_not_ws (P V : List Char)
    (hP : ∀ c ∈ P, isTagNameChar c = true) (hV : ∀ c ∈ V, isTagNameChar c = true) :
    ∀ c ∈ P ++ '=' :: '"' :: (V ++ '"' :: '/' :: []), isJsWs c = false := by
  intro c hc
  rcases List.mem_append.mp hc with hc1 | hc2
  · exact (isTagNameChar_spec c (hP c hc1)).1
  · rcases List.mem_cons.mp hc2 with rfl | hc3
    · rfl
    rcases List.mem_cons.mp hc3 with rfl | hc4
    · rfl
    rcases List.mem_append.mp hc4 with hc5 | hc6
    · exact (isTagNameChar_spec c (hV c hc5)).1
    · rcases List.mem_cons.mp hc6 with rfl | hc7
      · rfl
      rcases List.mem_cons.mp hc7 with rfl | hc8
      · rfl
      · exact absurd hc8 (by simp)

/-- The characters of the attribute block are not `>`. -/
theorem attrBlock_not_gt (P V : List Char)
    (hP : ∀ c ∈ P, isTagNameChar c = true) (hV : ∀ c ∈ V, isTagNameChar c = true) :
    ∀ c ∈ P ++ '=' :: '"' :: (V ++ '"' :: '/' :: []), c ≠ '>' := by
  intro c hc
  rcases List.mem_append.mp hc with hc1 | hc2
  · exact (isTagNameChar_spec c (hP c hc1)).2.1
  · rcases List.mem_cons.mp hc2 with rfl | hc3
    · decide
    rcases List.mem_cons.mp hc3 with rfl | hc4
    · decide
    rcases List.mem_append.mp hc4 with hc5 | hc6
    · exact (isTagNameChar_spec c (hV c hc5)).2.1
    · rcases List.mem_cons.mp hc6 with rfl | hc7
      · decide
      rcases List.mem_cons.mp hc7 with rfl | hc8
      · decide
      · exact absurd hc8 (by simp)

/-- The outer `removeProp` matcher on the tag produced by `addProp`: the
greedy `[^>]*` backtracks all the way (no other whitespace precedes the
attribute), and the match spans the whole tag. -/
theorem removePropMatchAt_tag (C P V post : List Char)
    (hP : ∀ c ∈ P, isTagNameChar c = true) (hV : ∀ c ∈ V, isTagNameChar c = true) :
    removePropMatchAt C P
        (('<' :: C) ++ ' ' :: (P ++ '=' :: '"' :: (V ++ '"' :: '/' :: '>' :: post))) =
      some (C.length + 1 + 0 + (P.length + V.length + 6)) := by
  have hVq : ∀ c ∈ V, c ≠ '"' := fun c hc => (isTagNameChar_spec c (hV c hc)).2.2.2.2.2.1
  unfold removePropMatchAt
  rw [isPrefixOf_append_self, if_pos rfl]
  rw [List.drop_left' (by simp)]
  set body : List Char := P ++ '=' :: '"' :: (V ++ '"' :: '/' :: []) with hbodydef
  have hshape : P ++ '=' :: '"' :: (V ++ '"' :: '/' :: '>' :: post) = body ++ '>' :: post := by
    rw [hbodydef]
    simp
  have hbody_nws := attrBlock_not_ws P V hP hV
  have hbody_ngt := attrBlock_not_gt P V hP hV
  have hcount : countNonGt (' ' :: (body ++ '>' :: post)) = body.length + 1 := by
    rw [countNonGt, if_neg (by decide)]
    rw [countNonGt_append body post hbody_ngt]
  have hfail : ∀ j, 1 ≤ j → j ≤ body.length + 1 →
      tryTail P ((' ' :: (body ++ '>' :: post)).drop j) = none := by
    intro j h1 h2
    apply tryTail_none_head
    intro c hc
    rw [List.head?_drop] at hc
    obtain ⟨j', rfl⟩ : ∃ j', j = j' + 1 := ⟨j - 1, by omega⟩
    rw [List.getElem?_cons_succ] at hc
    by_cases hj : j' < body.length
    · rw [List.getElem?_append_left hj] at hc
      have hmem : c ∈ body := by
        rw [List.getElem?_eq_getElem hj] at hc
        have hbc : body[j'] = c := by simpa using hc
        rw [← hbc]
        exact List.getElem_mem hj
      exact hbody_nws c hmem
    · have hj2 : j' = body.length := by omega
      subst hj2
      rw [List.getElem?_append_right le_rfl] at hc
      have hcgt : c = '>' := by simpa using hc.symm
      rw [hcgt]
      rfl
  have htry0 : tryTail P (' ' :: (body ++ '>' :: post)) =
      some (P.length + V.length + 6) := by
    rw [← hshape]
    exact tryTail_eq P V post hVq
  rw [hshape, hcount]
  rw [tryA_of_fail P (' ' :: (body ++ '>' :: post)) (body.length + 1)
    (by intro j hj1 hj2; exact hfail j hj1 hj2)]
  rw [htry0]
  rfl

/-- The inner replacement skips a whitespace-free block. -/
theorem innerRemove_skip (P x y : List Char) (hx : ∀ c ∈ x, isJsWs c = false) :
    innerRemove P (x ++ y) = x ++ innerRemove P y := by
  induction x with
  | nil => rfl
  | cons c rest ih =>
    rw [List.cons_append, innerRemove, hx c (by simp)]
    show c :: innerRemove P (rest ++ y) = c :: (rest ++ innerRemove P y)
    rw [ih (fun a ha => hx a (by simp [ha]))]

/-- The inner replacement removes exactly the whitespace, the prop name and
the quoted value. -/
theorem innerRemove_attr (P V z : List Char) (hV : ∀ c ∈ V, c ≠ '"') :
    innerRemove P (' ' :: (P ++ '=' :: '"' :: (V ++ '"' :: z))) = z := by
  rw [innerRemove]
  rw [if_pos (by rw [show isJsWs ' ' = true from rfl, isPrefixOf_append_self]; rfl)]
  rw [List.drop_left]
  rw [tryQ_eq V z hV]
  show (P ++ '=' :: '"' :: (V ++ '"' :: z)).drop (P.length + (V.length + 3)) = z
  rw [drop_length_add_append]
  show (V ++ '"' :: z).drop (V.length + 1) = z
  rw [drop_length_add_append]
  rfl

/-- `removeProp` on the tag produced by `addProp` restores the original
self-closing tag (and leaves the `<`-free remainder alone). -/
theorem removePropGo_tag (C P V post : List Char) (hpost : ∀ c ∈ post, c ≠ '<')
    (hC : ∀ c ∈ C, isTagNameChar c = true)
    (hP : ∀ c ∈ P, isTagNameChar c = true) (hV : ∀ c ∈ V, isTagNameChar c = true)
    (fuel : Nat) :
    removePropGo C P (fuel + 1)
        ('<' :: (C ++ ' ' :: (P ++ '=' :: '"' :: (V ++ '"' :: '/' :: '>' :: post)))) =
      '<' :: (C ++ '/' :: '>' :: post) := by
  have hVq : ∀ c ∈ V, c ≠ '"' := fun c hc => (isTagNameChar_spec c (hV c hc)).2.2.2.2.2.1
  have hmatch : removePropMatchAt C P
      ('<' :: (C ++ ' ' :: (P ++ '=' :: '"' :: (V ++ '"' :: '/' :: '>' :: post)))) =
      some (C.length + 1 + 0 + (P.length + V.length + 6)) := by
    rw [show '<' :: (C ++ ' ' :: (P ++ '=' :: '"' :: (V ++ '"' :: '/' :: '>' :: post))) =
      ('<' :: C) ++ ' ' :: (P ++ '=' :: '"' :: (V ++ '"' :: '/' :: '>' :: post)) from by simp]
    exact removePropMatchAt_tag C P V post hP hV
  rw [removePropGo]
  simp only [hmatch]
  have htake : ('<' :: (C ++ ' ' :: (P ++ '=' :: '"' :: (V ++ '"' :: '/' :: '>' :: post)))).take
      (C.length + 1 + 0 + (P.length + V.length + 6)) =
      ('<' :: C) ++ ' ' :: (P ++ '=' :: '"' :: (V ++ '"' :: '/' :: '>' :: [])) := by
    rw [show '<' :: (C ++ ' ' :: (P ++ '=' :: '"' :: (V ++ '"' :: '/' :: '>' :: post))) =
      (('<' :: C) ++ ' ' :: (P ++ '=' :: '"' :: (V ++ '"' :: '/' :: '>' :: []))) ++ post
      from by simp]
    rw [List.take_left' (by simp; omega)]
  have hdrop : (C ++ ' ' :: (P ++ '=' :: '"' :: (V ++ '"' :: '/' :: '>' :: post))).drop
      (C.length + 1 + 0 + (P.length + V.length + 6) - 1) = post := by
    rw [show C ++ ' ' :: (P ++ '=' :: '"' :: (V ++ '"' :: '/' :: '>' :: post)) =
      (C ++ ' ' :: (P ++ '=' :: '"' :: (V ++ '"' :: '/' :: '>' :: []))) ++ post
      from by simp]
    rw [List.drop_left' (by simp; omega)]
  have hxnws : ∀ c ∈ '<' :: C, isJsWs c = false := by
    intro c hc
    rcases List.mem_cons.mp hc with rfl | hmem
    · rfl
    · exact (isTagNameChar_spec c (hC c hmem)).1
  have hinner : innerRemove P
      (('<' :: C) ++ ' ' :: (P ++ '=' :: '"' :: (V ++ '"' :: '/' :: '>' :: []))) =
      ('<' :: C) ++ '/' :: '>' :: [] := by
    rw [show ('<' :: C) ++ ' ' :: (P ++ '=' :: '"' :: (V ++ '"' :: '/' :: '>' :: [])) =
      ('<' :: C) ++ (' ' :: (P ++ '=' :: '"' :: (V ++ '"' :: ('/' :: '>' :: []))))
      from by simp]
    rw [innerRemove_skip P ('<' :: C) _ hxnws]
    rw [innerRemove_attr P V ('/' :: '>' :: []) hVq]
  rw [htake, hdrop, hinner]
  rw [removePropGo_id C P post hpost fuel]
  simp

/-- C6, counterexample. The claim says `addProp` then `removeProp` with the
same names restores any text in which the attribute did not pre-exist, for
every value. With the value `a"b` (which contains a double quote) on
`<Button/>`, `addProp` produces `<Button disabled="a"b"/>`; `removeProp`'s
inner pattern then matches only up to the first quote and removes
` disabled="a"`, leaving `<Buttonb"/>` — not the original text. -/
theorem addProp_removeProp_roundtrip_counterexample :
    addProp buttonSelfClosing ("Button".toList) ("disabled".toList) ("a\"b".toList) =
      "<Button disabled=\"a\"b\"/>".toList ∧
    removeProp
        (addProp buttonSelfClosing ("Button".toList) ("disabled".toList) ("a\"b".toList))
        ("Button".toList) ("disabled".toList) = "<Buttonb\"/>".toList ∧
    "<Buttonb\"/>".toList ≠ buttonSelfClosing ∧
    includesSub buttonSelfClosing ("disabled".toList) = false := by
  exact ⟨by decide, by decide, by decide, by decide⟩

/-- C6, amended: the round trip does hold away from such interference — on a
text `pre <C/> post` whose surroundings contain no `<` and whose component
name, attribute name and value consist of benign characters (no whitespace,
no quotes, no `<`/`>`/`/`/`=`, no regex syntax characters), `addProp`
followed by `removeProp` with the same names restores the text exactly. -/
theorem addProp_removeProp_roundtrip (pre C P V post : List Char)
    (hpre : ∀ c ∈ pre, c ≠ '<') (hpost : ∀ c ∈ post, c ≠ '<')
    (hC : ∀ c ∈ C, isTagNameChar c = true) (hP : ∀ c ∈ P, isTagNameChar c = true)
    (hV : ∀ c ∈ V, isTagNameChar c = true) :
    removeProp (addProp (pre ++ '<' :: (C ++ '/' :: '>' :: post)) C P V) C P =
      pre ++ '<' :: (C ++ '/' :: '>' :: post) := by
  have h1 : addProp (pre ++ '<' :: (C ++ '/' :: '>' :: post)) C P V =
      pre ++ '<' :: (C ++ ' ' :: (P ++ '=' :: '"' :: (V ++ '"' :: '/' :: '>' :: post))) := by
    unfold addProp
    rw [show (pre ++ '<' :: (C ++ '/' :: '>' :: post)).length =
      pre.length + ((C ++ '/' :: '>' :: post).length + 1) by simp]
    rw [addPropGo_append C P V pre hpre]
    rw [addPropGo_tag C P V post hpost]
  rw [h1]
  unfold removeProp
  rw [show (pre ++
      '<' :: (C ++ ' ' :: (P ++ '=' :: '"' :: (V ++ '"' :: '/' :: '>' :: post)))).length =
    pre.length +
      ((C ++ ' ' :: (P ++ '=' :: '"' :: (V ++ '"' :: '/' :: '>' :: post))).length + 1)
    by simp]
  rw [removePropGo_append C P pre hpre]
  rw [removePropGo_tag C P V post hpost hC hP hV]

/-- C6, witness for the amended round trip at a concrete input. -/
theorem addProp_removeProp_roundtrip_witness :
    removeProp
        (addProp ("x ".toList ++ '<' :: ("Button".toList ++ '/' :: '>' :: " y".toList))
          ("Button".toList) ("disabled".toList) ("true".toList))
        ("Button".toList) ("disabled".toList) =
      "x ".toList ++ '<' :: ("Button".toList ++ '/' :: '>' :: " y".toList) :=
  addProp_removeProp_roundtrip ("x ".toList) ("Button".toList) ("disabled".toList)
    ("true".toList) (" y".toList) (by decide) (by decide) (by decide) (by decide)
    (by decide)

end UseNemo
